import Mathlib

/-!
Verification development for the PathFinder+ path-enumeration and
mission-assembly engine (source: PathFinder_plus.py).

Nodes are modelled by their index in the source's `node_id` list
(`start` is index 0 in the source; here indices are arbitrary naturals).
The adjacency structure `g`, the breach-cost tables `node_time`,
`node_consum`, `node_tools`, and the budget constants are parameters.
Python integer arithmetic is modelled with `Nat`/`Int`; the floating
point quantities of the travel-time formula (fatigue factors, speeds,
the 0.051 rounding guard) are modelled as exact rationals.
-/

namespace PathFinderPlus

/-- The breach cost tables built by `get_all_breaches`: for each node index,
its breach time (`node_time`), consumable weight (`node_consum`) and
tool-weight list (`node_tools`, a 20-entry list in the source). -/
structure Costs where
  node_time : Nat → Nat
  node_consum : Nat → Nat
  node_tools : Nat → List Nat

/-- The three budget constants read from Setup.txt. -/
structure Budgets where
  max_time : Nat
  max_consumables : Nat
  max_weight : Nat

/-- The inner tool loop of `print_all_paths_util` (source lines 1500-1503):
`for i in range(0, k): if old_tools[i] > new_tools[i]: new_tools[i] = old_tools[i];
total_weight += new_tools[i]` with `k = 19`.  Returns the updated tool list
and the partial weight sum accumulated by the loop (the sum of the first
`k` entries of the updated list). -/
def tool_merge : Nat → List Nat → List Nat → List Nat × Nat
  | 0, _, cur => (cur, 0)
  | _ + 1, [], cur => (cur, 0)
  | _ + 1, _ :: _, [] => ([], 0)
  | k + 1, o :: os, c :: cs =>
      let c2 := max o c
      let r := tool_merge k os cs
      (c2 :: r.1, c2 + r.2)

/-- The per-path accounting record built at the emission point of
`print_all_paths_util` (variables `total_time`, `total_consum`,
`total_weight`, `new_tools` of the source). -/
structure PMeta where
  total_time : Nat
  total_consum : Nat
  total_weight : Nat
  new_tools : List Nat
deriving DecidableEq

/-- Initial accounting state (source lines 1486-1489). -/
def meta_init : PMeta :=
  { total_time := 0, total_consum := 0, total_weight := 0,
    new_tools := List.replicate 20 0 }

/-- One iteration of the `for item in path` accounting loop of
`print_all_paths_util` (source lines 1490-1503): add the node's consumable
weight and breach time, merge its tool weights elementwise (indices 0-18
only, `range(0, 19)` in the source), and recompute `total_weight` as the
consumable total plus the sum of the first 19 merged tool weights. -/
def meta_step (C : Costs) (st : PMeta) (item : Nat) : PMeta :=
  let consum := st.total_consum + C.node_consum item
  let time := st.total_time + C.node_time item
  let m := tool_merge 19 (C.node_tools item) st.new_tools
  { total_time := time, total_consum := consum,
    total_weight := consum + m.2, new_tools := m.1 }

/-- The whole accounting loop of `print_all_paths_util` over a path. -/
def path_meta (C : Costs) (p : List Nat) : PMeta :=
  p.foldl (meta_step C) meta_init

/-- The emission check of `print_all_paths_util` (source line 1507):
`total_consum <= max_consumables and total_time <= max_time and
total_weight <= max_weight`. -/
def within_budgets (C : Costs) (B : Budgets) (p : List Nat) : Bool :=
  let m := path_meta C p
  decide (m.total_consum ≤ B.max_consumables) &&
    decide (m.total_time ≤ B.max_time) &&
    decide (m.total_weight ≤ B.max_weight)

/-- The recursive depth-first walk `print_all_paths_util` (source lines
1467-1530).  The source mutates a `visited` map and a `path` list, marking
`u` before branching and restoring both on exit; here the marked state is
passed explicitly, so the list of emitted paths of a call is the
concatenation of the lists emitted below each admissible neighbour.
Reaching the destination emits the accumulated path exactly when the
resource check passes.  The extra `fuel` argument bounds the recursion
depth; every call consumes one unit and marks one more node, so any
`fuel` at least the number of graph nodes is enough (made precise in
`print_all_paths_util_mem_iff`). -/
def print_all_paths_util (g : Nat → List Nat) (C : Costs) (B : Budgets)
    (d : Nat) : Nat → Nat → Finset Nat → List Nat → List (List Nat)
  | 0, _, _, _ => []
  | fuel + 1, u, visited, path =>
      let visited2 := insert u visited
      let path2 := path ++ [u]
      if u = d then
        if within_budgets C B path2 then [path2] else []
      else
        ((g u).filter (fun i => decide (i ∉ visited2))).flatMap
          (fun i => print_all_paths_util g C B d fuel i visited2 path2)

/-- Entry point `print_all_paths` for one segment key (source lines
1410-1443): run the walk from `s` with destination `d`, an all-false
`visited` map over the `n` node indices and an empty path.  The returned
list is the segment's emitted path set (the value appended to
`segment_paths` for the key). -/
def print_all_paths (g : Nat → List Nat) (C : Costs) (B : Budgets)
    (n s d : Nat) : List (List Nat) :=
  print_all_paths_util g C B d n s ∅ []

/-- Adjacency check for consecutive nodes of a list: each step of the
path follows a directed edge of `g`. -/
def edges_ok (g : Nat → List Nat) : List Nat → Bool
  | [] => true
  | [_] => true
  | a :: b :: t => decide (b ∈ g a) && edges_ok g (b :: t)

/-- A simple path from `s` to `d` in `g`: non-empty, starts at `s`, ends
at `d`, repeats no node, and follows directed edges. -/
def is_simple_path (g : Nat → List Nat) (s d : Nat) (p : List Nat) : Prop :=
  p.head? = some s ∧ p.getLast? = some d ∧ p.Nodup ∧ edges_ok g p = true

instance (g : Nat → List Nat) (s d : Nat) (p : List Nat) :
    Decidable (is_simple_path g s d p) :=
  inferInstanceAs (Decidable (p.head? = some s ∧ p.getLast? = some d ∧
    p.Nodup ∧ edges_ok g p = true))

theorem edges_ok_cons_cons (g : Nat → List Nat) (a b : Nat) (t : List Nat) :
    edges_ok g (a :: b :: t) = (decide (b ∈ g a) && edges_ok g (b :: t)) := rfl

/-- A non-empty duplicate-free list whose first and last entries agree is a
singleton. -/
theorem eq_singleton_of_head_getLast {q : List Nat} {a : Nat}
    (h1 : q.head? = some a) (h2 : q.getLast? = some a) (h3 : q.Nodup) :
    q = [a] := by
  match q with
  | [] => simp at h1
  | x :: xs =>
    have hx : x = a := by simpa using h1
    subst hx
    match xs, h2 with
    | [], _ => rfl
    | y :: ys, h2 =>
      exfalso
      have hmem : x ∈ y :: ys := by
        have : (y :: ys).getLast? = some x := by
          rw [List.getLast?_cons_cons] at h2
          exact h2
        exact List.mem_of_getLast?_eq_some this
      simp only [List.nodup_cons] at h3
      exact h3.1 hmem

/-- Characterization of the depth-first walk: a list is emitted by the call
on `u` with marked set `visited` and accumulated prefix `path` exactly when
it is the prefix followed by a duplicate-free edge path from `u` to `d`
avoiding the marked nodes, whose full accumulated path passes the resource
check.  The fuel hypothesis states that the remaining fuel plus the number
of marked nodes covers the node count, which holds for the top-level call
with fuel `n` and an empty marked set. -/
theorem print_all_paths_util_mem_iff (g : Nat → List Nat) (C : Costs)
    (B : Budgets) (d n : Nat) (hg : ∀ x y, y ∈ g x → y < n) :
    ∀ (fuel u : Nat) (visited : Finset Nat) (path r : List Nat),
      u < n → u ∉ visited → n ≤ fuel + (visited ∩ Finset.range n).card →
      (r ∈ print_all_paths_util g C B d fuel u visited path ↔
        ∃ q, r = path ++ q ∧ q.head? = some u ∧ q.getLast? = some d ∧
          q.Nodup ∧ (∀ x ∈ q, x ∉ visited) ∧ edges_ok g q = true ∧
          within_budgets C B (path ++ q) = true) := by
  intro fuel
  induction fuel with
  | zero =>
      intro u visited path r hu huv hfuel
      exfalso
      have hu1 : u ∈ Finset.range n := Finset.mem_range.mpr hu
      have hu2 : u ∉ visited ∩ Finset.range n := fun h => huv (Finset.mem_inter.mp h).1
      have hss : visited ∩ Finset.range n ⊂ Finset.range n :=
        (Finset.ssubset_iff_of_subset Finset.inter_subset_right).mpr ⟨u, hu1, hu2⟩
      have hcard : (visited ∩ Finset.range n).card < n := by
        simpa using Finset.card_lt_card hss
      omega
  | succ fuel ih =>
      intro u visited path r hu huv hfuel
      have hu1 : u ∈ Finset.range n := Finset.mem_range.mpr hu
      have hu2 : u ∉ visited ∩ Finset.range n := fun h => huv (Finset.mem_inter.mp h).1
      have hinter : insert u visited ∩ Finset.range n
          = insert u (visited ∩ Finset.range n) := Finset.insert_inter_of_mem hu1
      have hfuel2 : n ≤ fuel + (insert u visited ∩ Finset.range n).card := by
        rw [hinter, Finset.card_insert_of_not_mem hu2]
        omega
      by_cases hud : u = d
      · subst hud
        simp only [print_all_paths_util, if_pos rfl]
        constructor
        · intro hr
          by_cases hw : within_budgets C B (path ++ [u]) = true
          · rw [if_pos hw] at hr
            have hru : r = path ++ [u] := by simpa using hr
            exact ⟨[u], hru, rfl, rfl, by simp, by
              intro x hx
              have : x = u := by simpa using hx
              simpa [this] using huv, rfl, hw⟩
          · rw [if_neg hw] at hr
            simp at hr
        · rintro ⟨q, hr, hh, hl, hnd, _, _, hb⟩
          have hq : q = [u] := eq_singleton_of_head_getLast hh hl hnd
          subst hq
          rw [if_pos hb]
          simp [hr]
      · simp only [print_all_paths_util, if_neg hud, List.mem_flatMap,
          List.mem_filter]
        constructor
        · rintro ⟨v, ⟨hvg, hvdec⟩, hrec⟩
          have hvni : v ∉ insert u visited := of_decide_eq_true hvdec
          have hv : v < n := hg u v hvg
          have := (ih v (insert u visited) (path ++ [u]) r hv hvni hfuel2).mp hrec
          obtain ⟨q', hr, hh', hl', hnd', hav', he', hb'⟩ := this
          obtain ⟨t, hq't⟩ : ∃ t, q' = v :: t := by
            match q', hh' with
            | v' :: t, hh' => exact ⟨t, by simpa using hh'⟩
          subst hq't
          refine ⟨u :: v :: t, ?_, rfl, ?_, ?_, ?_, ?_, ?_⟩
          · simpa using hr
          · simpa [List.getLast?_cons_cons] using hl'
          · refine List.nodup_cons.mpr ⟨?_, hnd'⟩
            intro hmem
            exact (hav' u hmem) (Finset.mem_insert_self u visited)
          · intro x hx
            rcases List.mem_cons.mp hx with hxu | hxq
            · simpa [hxu] using huv
            · intro hxv
              exact (hav' x hxq) (Finset.mem_insert_of_mem hxv)
          · rw [edges_ok_cons_cons, Bool.and_eq_true]
            exact ⟨decide_eq_true hvg, he'⟩
          · simpa using hb'
        · rintro ⟨q, hr, hh, hl, hnd, hav, he, hb⟩
          obtain ⟨q', hq⟩ : ∃ q', q = u :: q' := by
            match q, hh with
            | u' :: q', hh => exact ⟨q', by simpa using hh⟩
          subst hq
          match q', hl, hnd, hav, he, hr, hb with
          | [], hl, _, _, _, _, _ =>
              exact absurd (by simpa using hl) hud
          | v :: t, hl, hnd, hav, he, hr, hb =>
            have hvg : v ∈ g u := by
              rw [edges_ok_cons_cons, Bool.and_eq_true] at he
              exact of_decide_eq_true he.1
            have hvu : v ≠ u := by
              intro hvu
              have := List.nodup_cons.mp hnd
              exact this.1 (by simp [hvu])
            have hvvis : v ∉ visited := hav v (by simp)
            have hvni : v ∉ insert u visited := by
              simp [Finset.mem_insert, hvu, hvvis]
            refine ⟨v, ⟨hvg, decide_eq_true hvni⟩, ?_⟩
            have hv : v < n := hg u v hvg
            refine (ih v (insert u visited) (path ++ [u]) r hv hvni hfuel2).mpr
              ⟨v :: t, ?_, rfl, ?_, ?_, ?_, ?_, ?_⟩
            · simpa using hr
            · simpa [List.getLast?_cons_cons] using hl
            · exact (List.nodup_cons.mp hnd).2
            · intro x hx
              have hxu : x ≠ u := by
                intro hxu
                exact (List.nodup_cons.mp hnd).1 (hxu ▸ hx)
              have hxv : x ∉ visited := hav x (List.mem_cons_of_mem _ hx)
              simp [Finset.mem_insert, hxu, hxv]
            · rw [edges_ok_cons_cons, Bool.and_eq_true] at he
              exact he.2
            · simpa using hb

/-- Small concrete facility model used to instantiate the theorems:
three nodes 0 (`start`), 1, 2 with edges 0→1 and 1→2. -/
def gEx : Nat → List Nat
  | 0 => [1]
  | 1 => [2]
  | _ => []

/-- Concrete breach tables for `gEx`: node 1 needs 100 s, 5 lb of
consumables, a 5 lb tool at index 0 and a 7 lb tool at index 19;
node 2 needs 50 s and 3 lb of consumables. -/
def CEx : Costs :=
  { node_time := fun x => if x = 1 then 100 else if x = 2 then 50 else 0,
    node_consum := fun x => if x = 1 then 5 else if x = 2 then 3 else 0,
    node_tools := fun x =>
      if x = 1 then 5 :: (List.replicate 18 0 ++ [7]) else List.replicate 20 0 }

/-- Concrete budgets for the examples. -/
def BEx : Budgets :=
  { max_time := 1000, max_consumables := 50, max_weight := 50 }

theorem gEx_bound : ∀ x y, y ∈ gEx x → y < 3 := by
  intro x y h
  match x with
  | 0 => simp [gEx] at h; omega
  | 1 => simp [gEx] at h; omega
  | x + 2 => simp [gEx] at h

/-- C1: for a key `(s, d)` over known nodes and fixed budgets, the segment
enumerator emits exactly the simple paths from `s` to `d` whose recorded
accounting passes all three budget checks: every emitted path passes the
checks, and every simple path that is not emitted fails at least one. -/
theorem C1_enumerator_emits_exactly_budgeted_simple_paths
    (g : Nat → List Nat) (C : Costs) (B : Budgets) (n s d : Nat)
    (hg : ∀ x y, y ∈ g x → y < n) (hs : s < n) (p : List Nat) :
    p ∈ print_all_paths g C B n s d ↔
      (is_simple_path g s d p ∧ within_budgets C B p = true) := by
  unfold print_all_paths
  rw [print_all_paths_util_mem_iff g C B d n hg n s ∅ [] p hs (by simp)
    (by simp)]
  constructor
  · rintro ⟨q, hr, hh, hl, hnd, _, he, hb⟩
    have hpq : p = q := by simpa using hr
    subst hpq
    exact ⟨⟨hh, hl, hnd, he⟩, by simpa using hb⟩
  · rintro ⟨⟨hh, hl, hnd, he⟩, hb⟩
    exact ⟨p, by simp, hh, hl, hnd, by simp, he, by simpa using hb⟩

/-- Witness for C1 at the concrete model: the path 0→1 is a budget-passing
simple path and is emitted. -/
theorem C1_witness :
    [0, 1] ∈ print_all_paths gEx CEx BEx 3 0 1 :=
  (C1_enumerator_emits_exactly_budgeted_simple_paths gEx CEx BEx 3 0 1
    gEx_bound (by omega) [0, 1]).mpr (by decide)

/-- C8: every path emitted by the segment enumerator is a non-empty node
sequence starting at the requested origin, ending at the requested
destination, with no repeated node. -/
theorem C8_emitted_paths_are_simple
    (g : Nat → List Nat) (C : Costs) (B : Budgets) (n s d : Nat)
    (hg : ∀ x y, y ∈ g x → y < n) (hs : s < n) (p : List Nat)
    (hp : p ∈ print_all_paths g C B n s d) :
    p ≠ [] ∧ p.head? = some s ∧ p.getLast? = some d ∧ p.Nodup := by
  unfold print_all_paths at hp
  rw [print_all_paths_util_mem_iff g C B d n hg n s ∅ [] p hs (by simp)
    (by simp)] at hp
  obtain ⟨q, hr, hh, hl, hnd, _, _, _⟩ := hp
  have hpq : p = q := by simpa using hr
  subst hpq
  refine ⟨?_, hh, hl, hnd⟩
  intro hnil
  subst hnil
  simp at hh

/-- Witness for C8 at the concrete model. -/
theorem C8_witness :
    [0, 1, 2] ≠ ([] : List Nat) ∧ ([0, 1, 2] : List Nat).head? = some 0 ∧
      ([0, 1, 2] : List Nat).getLast? = some 2 ∧ ([0, 1, 2] : List Nat).Nodup :=
  C8_emitted_paths_are_simple gEx CEx BEx 3 0 2 gEx_bound (by omega)
    [0, 1, 2] (by decide)

theorem getD_replicate_zero (n i : Nat) :
    (List.replicate n (0 : Nat)).getD i 0 = 0 := by
  rw [List.getD_eq_getElem?_getD, List.getElem?_replicate]
  split <;> rfl

theorem tool_merge_length : ∀ (k : Nat) (old cur : List Nat),
    ((tool_merge k old cur).1).length = cur.length
  | 0, _, _ => rfl
  | _ + 1, [], _ => rfl
  | _ + 1, _ :: _, [] => rfl
  | k + 1, o :: os, c :: cs => by
      simp [tool_merge, tool_merge_length k os cs]

theorem tool_merge_getD_lt : ∀ (k : Nat) (old cur : List Nat) (i : Nat),
    i < k → i < old.length → i < cur.length →
    ((tool_merge k old cur).1).getD i 0 = max (old.getD i 0) (cur.getD i 0)
  | 0, _, _, _, hik, _, _ => absurd hik (by omega)
  | _ + 1, [], _, _, _, hio, _ => absurd hio (by simp)
  | _ + 1, _ :: _, [], _, _, _, hic => absurd hic (by simp)
  | k + 1, o :: os, c :: cs, 0, _, _, _ => by simp [tool_merge]
  | k + 1, o :: os, c :: cs, i + 1, hik, hio, hic => by
      have := tool_merge_getD_lt k os cs i (by omega) (by simpa using hio)
        (by simpa using hic)
      simpa [tool_merge] using this

theorem tool_merge_getD_ge : ∀ (k : Nat) (old cur : List Nat) (i : Nat),
    k ≤ i → ((tool_merge k old cur).1).getD i 0 = cur.getD i 0
  | 0, _, _, _, _ => rfl
  | _ + 1, [], _, _, _ => rfl
  | _ + 1, _ :: _, [], _, _ => by simp [tool_merge]
  | k + 1, o :: os, c :: cs, i, hki => by
      match i, hki with
      | i + 1, hki =>
        have := tool_merge_getD_ge k os cs i (by omega)
        simpa [tool_merge] using this

theorem tool_merge_sum : ∀ (k : Nat) (old cur : List Nat),
    k ≤ old.length → k ≤ cur.length →
    (tool_merge k old cur).2 = (((tool_merge k old cur).1).take k).sum
  | 0, _, _, _, _ => rfl
  | _ + 1, [], _, ho, _ => absurd ho (by simp)
  | _ + 1, _ :: _, [], _, hc => absurd hc (by simp)
  | k + 1, o :: os, c :: cs, ho, hc => by
      have := tool_merge_sum k os cs (by simpa using ho) (by simpa using hc)
      simp [tool_merge, this]

/-- The consumable total recorded by the accounting loop is the sum of
`node_consum` over all entries of the path, the first included. -/
theorem path_meta_consum (C : Costs) (p : List Nat) :
    (path_meta C p).total_consum = (p.map C.node_consum).sum := by
  suffices h : ∀ st : PMeta, (p.foldl (meta_step C) st).total_consum
      = st.total_consum + (p.map C.node_consum).sum by
    simpa [path_meta, meta_init] using h meta_init
  induction p with
  | nil => intro st; simp
  | cons a p ih =>
      intro st
      simp only [List.foldl_cons, List.map_cons, List.sum_cons, ih]
      simp [meta_step]
      omega

/-- The time total recorded by the accounting loop is the sum of
`node_time` over all entries of the path, the first included; no travel
term is part of it. -/
theorem path_meta_time (C : Costs) (p : List Nat) :
    (path_meta C p).total_time = (p.map C.node_time).sum := by
  suffices h : ∀ st : PMeta, (p.foldl (meta_step C) st).total_time
      = st.total_time + (p.map C.node_time).sum by
    simpa [path_meta, meta_init] using h meta_init
  induction p with
  | nil => intro st; simp
  | cons a p ih =>
      intro st
      simp only [List.foldl_cons, List.map_cons, List.sum_cons, ih]
      simp [meta_step]
      omega

theorem path_meta_tools_length (C : Costs) (p : List Nat) :
    (path_meta C p).new_tools.length = 20 := by
  suffices h : ∀ st : PMeta, st.new_tools.length = 20 →
      (p.foldl (meta_step C) st).new_tools.length = 20 by
    exact h meta_init (by simp [meta_init])
  induction p with
  | nil => intro st hst; simpa using hst
  | cons a p ih =>
      intro st hst
      simp only [List.foldl_cons]
      exact ih _ (by simp [meta_step, tool_merge_length, hst])

/-- Tool indices 0-18: the recorded tool weight is the running elementwise
maximum of `node_tools` over the entries of the path. -/
theorem path_meta_tools_getD_lt (C : Costs) (p : List Nat) (i : Nat)
    (hi : i < 19) (hT : ∀ x, (C.node_tools x).length = 20) :
    (path_meta C p).new_tools.getD i 0
      = (p.map (fun x => (C.node_tools x).getD i 0)).foldr max 0 := by
  suffices h : ∀ st : PMeta, st.new_tools.length = 20 →
      (p.foldl (meta_step C) st).new_tools.getD i 0
        = max ((p.map (fun x => (C.node_tools x).getD i 0)).foldr max 0)
            (st.new_tools.getD i 0) by
    have h0 := h meta_init (by simp [meta_init])
    rw [show meta_init.new_tools.getD i 0 = 0 from getD_replicate_zero 20 i]
      at h0
    simpa [path_meta] using h0
  induction p with
  | nil => intro st hst; simp
  | cons a p ih =>
      intro st hst
      simp only [List.foldl_cons, List.map_cons, List.foldr_cons]
      rw [ih _ (by simp [meta_step, tool_merge_length, hst])]
      have hstep : (meta_step C st a).new_tools.getD i 0
          = max ((C.node_tools a).getD i 0) (st.new_tools.getD i 0) := by
        simp only [meta_step]
        exact tool_merge_getD_lt 19 _ _ i hi (by rw [hT]; omega)
          (by rw [hst]; omega)
      rw [hstep]
      simp [Nat.max_assoc, Nat.max_comm, Nat.max_left_comm]

/-- Tool index 19 is never touched by the merge loop: it stays at its
initial value 0 for every path. -/
theorem path_meta_tools_getD_19 (C : Costs) (p : List Nat) :
    (path_meta C p).new_tools.getD 19 0 = 0 := by
  suffices h : ∀ st : PMeta, (p.foldl (meta_step C) st).new_tools.getD 19 0
      = st.new_tools.getD 19 0 by
    have h0 := h meta_init
    rw [show meta_init.new_tools.getD 19 0 = 0 from getD_replicate_zero 20 19]
      at h0
    simpa [path_meta] using h0
  induction p with
  | nil => intro st; simp
  | cons a p ih =>
      intro st
      simp only [List.foldl_cons]
      rw [ih _]
      simp only [meta_step]
      exact tool_merge_getD_ge 19 _ _ 19 (by omega)

/-- The recorded total weight is the consumable total plus the sum of the
first 19 recorded tool weights (index 19 is not part of the sum). -/
theorem path_meta_weight (C : Costs) (p : List Nat)
    (hT : ∀ x, (C.node_tools x).length = 20) :
    (path_meta C p).total_weight
      = (path_meta C p).total_consum
        + (((path_meta C p).new_tools).take 19).sum := by
  suffices h : ∀ st : PMeta, st.new_tools.length = 20 →
      st.total_weight = st.total_consum + ((st.new_tools).take 19).sum →
      ((p.foldl (meta_step C) st).total_weight
        = (p.foldl (meta_step C) st).total_consum
          + (((p.foldl (meta_step C) st).new_tools).take 19).sum) by
    exact h meta_init (by simp [meta_init])
      (by simp [meta_init, List.take_replicate, List.sum_replicate])
  induction p with
  | nil => intro st _ hw; simpa using hw
  | cons a p ih =>
      intro st hst hw
      simp only [List.foldl_cons]
      refine ih _ (by simp [meta_step, tool_merge_length, hst]) ?_
      simp only [meta_step]
      rw [tool_merge_sum 19 _ _ (by rw [hT]; omega) (by rw [hst]; omega)]

/-- A parsed entry of an `eval_segments` value.  In the source each entry is
the formatted string `[ttttt,ccc,www], <t0,...,t19>, node0-node1-...` built
by `list2string`; `perm` re-extracts the bracketed totals, the tool vector
and the dash-joined node list with `find`/`split`, and this record holds
those parsed components. -/
structure Item where
  time : Nat
  consum : Nat
  weight : Nat
  tools : List Nat
  path : List String
deriving DecidableEq

/-- The tool loop of `perm` (source lines 1323-1325):
`for i in range(0, k): if toolvalues1[i] > toolvalues2[i]:
toolvalues2[i] = toolvalues1[i]`; entries of the second list at or beyond
the bound keep their value. -/
def upd_tools : Nat → List Nat → List Nat → List Nat
  | 0, _, t2 => t2
  | _ + 1, [], t2 => t2
  | _ + 1, _ :: _, [] => []
  | k + 1, a :: t1, b :: t2 => max a b :: upd_tools k t1 t2

/-- One inner-loop combination of `perm` (source lines 1296-1339): `item1`
is drawn from the later leg (`result[-1]`), `item2` from the earlier leg
(`result[-2]`).  Times, consumables and total weights of the two legs are
added; the tool vectors are merged with the loop bound
`len(toolvalues1) - 1`; the later leg's path loses its first node (the
source strips `path1` up to its first dash) before concatenation.  Returns
the validity flag of the budget re-check and the combined entry. -/
def perm_combine (t c nc : Nat) (item1 item2 : Item) : Bool × Item :=
  let new_ET := item1.time + item2.time
  let new_consum := item1.consum + item2.consum
  let new_nonconsum := item1.weight + item2.weight
  let valid := !(decide (new_ET > t) || decide (new_consum > c) ||
    decide (new_nonconsum > nc))
  let new_tools := upd_tools (item1.tools.length - 1) item1.tools item2.tools
  let new_path := item2.path ++ item1.path.drop 1
  (valid, { time := new_ET, consum := new_consum, weight := new_nonconsum,
            tools := new_tools, path := new_path })

theorem upd_tools_getD_lt : ∀ (k : Nat) (t1 t2 : List Nat) (i : Nat),
    i < k → i < t1.length → i < t2.length →
    (upd_tools k t1 t2).getD i 0 = max (t1.getD i 0) (t2.getD i 0)
  | 0, _, _, _, hik, _, _ => absurd hik (by omega)
  | _ + 1, [], _, _, _, h1, _ => absurd h1 (by simp)
  | _ + 1, _ :: _, [], _, _, _, h2 => absurd h2 (by simp)
  | k + 1, a :: t1, b :: t2, 0, _, _, _ => by simp [upd_tools]
  | k + 1, a :: t1, b :: t2, i + 1, hik, h1, h2 => by
      have := upd_tools_getD_lt k t1 t2 i (by omega) (by simpa using h1)
        (by simpa using h2)
      simpa [upd_tools] using this

theorem upd_tools_getD_ge : ∀ (k : Nat) (t1 t2 : List Nat) (i : Nat),
    k ≤ i → (upd_tools k t1 t2).getD i 0 = t2.getD i 0
  | 0, _, _, _, _ => rfl
  | _ + 1, [], _, _, _ => rfl
  | _ + 1, _ :: _, [], _, _ => by simp [upd_tools]
  | k + 1, a :: t1, b :: t2, i, hki => by
      match i, hki with
      | i + 1, hki =>
        have := upd_tools_getD_ge k t1 t2 i (by omega)
        simpa [upd_tools] using this

/-- Concrete later-leg entry (path A→B with a 4 lb tool at index 0):
its weight field is its consumables (3) plus its tool sum (4). -/
def q1Ex : Item :=
  { time := 20, consum := 3, weight := 7,
    tools := 4 :: List.replicate 19 0, path := ["A", "B"] }

/-- Concrete earlier-leg entry (path start→A with the same 4 lb tool). -/
def q2Ex : Item :=
  { time := 10, consum := 2, weight := 6,
    tools := 4 :: List.replicate 19 0, path := ["start", "A"] }

theorem CEx_tools_length : ∀ x, (CEx.node_tools x).length = 20 := by
  intro x
  by_cases hx : x = 1 <;> simp [CEx, hx]

/-- Counterexample to C2.  At tool index 19 the enumerator's merge loop
(`range(0, 19)`) never copies the node value: the path 0→1 is emitted, node
1 carries a 7 lb tool at index 19, the maximum over the path's nodes at
index 19 is 7, yet the recorded tool weight there is 0.  For the assembler,
combining two legs that each carry the same 4 lb tool gives a total weight
of 13 (the sum of the two legs' weights) while the consumable total plus
the sum of all 20 merged tool weights is 9. -/
theorem C2_counterexample :
    ([0, 1] ∈ print_all_paths gEx CEx BEx 3 0 1) ∧
    (path_meta CEx [0, 1]).new_tools.getD 19 0 = 0 ∧
    (([0, 1].map (fun x => (CEx.node_tools x).getD 19 0)).foldr max 0 = 7) ∧
    (perm_combine 1000 50 50 q1Ex q2Ex).2.weight = 13 ∧
    (perm_combine 1000 50 50 q1Ex q2Ex).2.consum
      + ((perm_combine 1000 50 50 q1Ex q2Ex).2.tools).sum = 9 ∧
    (13 : Nat) ≠ 9 := by
  decide

/-- C2 as amended: for every emitted path, the recorded tool weights at
indices 0-18 are the elementwise maxima of the node tool weights over the
path's (distinct) nodes, index 19 stays 0, and the recorded total weight is
the consumable total plus the sum of the first 19 tool weights only; for
the assembler's combination of two legs, the merged tool vector takes the
elementwise maximum at indices 0-18 and keeps the earlier leg's value at
index 19, and the combined total weight is the sum of the two legs' total
weights. -/
theorem C2_amended_tool_weight_semantics (g : Nat → List Nat) (C : Costs)
    (B : Budgets) (n s d : Nat) (_hg : ∀ x y, y ∈ g x → y < n) (_hs : s < n)
    (hT : ∀ x, (C.node_tools x).length = 20) (p : List Nat)
    (_hp : p ∈ print_all_paths g C B n s d) (t c nc : Nat) (q1 q2 : Item)
    (h1 : q1.tools.length = 20) (h2 : q2.tools.length = 20) :
    (∀ i, i < 19 → (path_meta C p).new_tools.getD i 0
        = (p.map (fun x => (C.node_tools x).getD i 0)).foldr max 0) ∧
    (path_meta C p).new_tools.getD 19 0 = 0 ∧
    (path_meta C p).total_weight
      = (path_meta C p).total_consum
        + (((path_meta C p).new_tools).take 19).sum ∧
    (∀ i, i < 19 → ((perm_combine t c nc q1 q2).2.tools).getD i 0
        = max (q1.tools.getD i 0) (q2.tools.getD i 0)) ∧
    ((perm_combine t c nc q1 q2).2.tools).getD 19 0 = q2.tools.getD 19 0 ∧
    (perm_combine t c nc q1 q2).2.weight = q1.weight + q2.weight := by
  refine ⟨fun i hi => path_meta_tools_getD_lt C p i hi hT,
    path_meta_tools_getD_19 C p, path_meta_weight C p hT, ?_, ?_, rfl⟩
  · intro i hi
    have hb : q1.tools.length - 1 = 19 := by omega
    simp only [perm_combine, hb]
    exact upd_tools_getD_lt 19 q1.tools q2.tools i hi (by omega) (by omega)
  · have hb : q1.tools.length - 1 = 19 := by omega
    simp only [perm_combine, hb]
    exact upd_tools_getD_ge 19 q1.tools q2.tools 19 (by omega)

/-- Witness for the amended C2 at concrete inputs. -/
theorem C2_witness :
    (path_meta CEx [0, 1]).new_tools.getD 0 0
      = (([0, 1].map (fun x => (CEx.node_tools x).getD 0 0)).foldr max 0) ∧
    (perm_combine 1000 50 50 q1Ex q2Ex).2.weight = 7 + 6 := by
  have h := C2_amended_tool_weight_semantics gEx CEx BEx 3 0 1 gEx_bound
    (by omega) CEx_tools_length [0, 1] (by decide) 1000 50 50 q1Ex q2Ex
    (by decide) (by decide)
  exact ⟨h.1 0 (by omega), h.2.2.2.2.2⟩

/-- Python `int()` applied to a rational value: truncation toward zero
(the conversion the source applies to the travel-time expression at line
699).  `Int.tdiv` is T-rounding division. -/
def py_int (q : ℚ) : ℤ := q.num.tdiv q.den

/-- The per-edge travel time computed in Step 4 of `generate_paths`
(source lines 693-699): `move_time = int((move_dist/adv_speed + vertical)
+ 0.051)` where `vertical = d * ascend_fatigue` if `d > 0` else
`d * descend_fatigue`.  `move_dist` and `dh` are the already-rounded
integer distance and height difference; the float arithmetic is modelled
exactly over ℚ. -/
def move_time (adv ascend descend : ℚ) (move_dist dh : ℤ) : ℤ :=
  py_int ((move_dist : ℚ) / adv
    + (if 0 < dh then (dh : ℚ) * ascend else (dh : ℚ) * descend) + 51 / 1000)

/-- Modelled from the spec (claim side, for comparison with the source):
the claimed travel-time formula, with round-down read as the mathematical
floor. -/
def spec_travel_time (adv ascend descend : ℚ) (move_dist dh : ℤ) : ℤ :=
  ⌊(move_dist : ℚ) / adv
    + (if 0 < dh then (dh : ℚ) * ascend else (dh : ℚ) * descend) + 51 / 1000⌋

/-- Modelled from the spec (claim side): total time as the sum of per-edge
travel times plus breach time charged on the first visit of each node
after the origin. -/
def spec_total_time (adv ascend descend : ℚ) (dist dh : Nat → Nat → ℤ)
    (C : Costs) (p : List Nat) : ℤ :=
  ((p.zip p.tail).map (fun e =>
      spec_travel_time adv ascend descend (dist e.1 e.2) (dh e.1 e.2))).sum
    + (p.tail.dedup.map (fun x => (C.node_time x : ℤ))).sum

/-- Modelled from the spec (claim side): total consumables as the sum over
the distinct nodes of the path after the first. -/
def spec_total_consum (C : Costs) (p : List Nat) : Nat :=
  (p.tail.dedup.map C.node_consum).sum

/-- Concrete edge-distance table for `gEx`: edge 0→1 is 11 ft, edge 1→2 is
22 ft. -/
def distEx : Nat → Nat → ℤ := fun a b => if a = 0 ∧ b = 1 then 11 else 22

/-- Concrete height-difference table for `gEx`: level ground. -/
def dhEx : Nat → Nat → ℤ := fun _ _ => 0

theorem py_int_nonneg (q : ℚ) (h : 0 ≤ q) : py_int q = ⌊q⌋ := by
  rw [Rat.floor_def]
  exact Int.tdiv_eq_ediv (Rat.num_nonneg.mpr h) (Int.natCast_nonneg q.den)

/-- Truncation toward zero is the floor on non-negative values and the
ceiling on negative ones. -/
theorem py_int_eq_floor_or_ceil (q : ℚ) :
    py_int q = if 0 ≤ q then ⌊q⌋ else ⌈q⌉ := by
  by_cases h : 0 ≤ q
  · rw [if_pos h]
    exact py_int_nonneg q h
  · rw [if_neg h]
    have h1 : 0 ≤ -q := by linarith [lt_of_not_le h]
    have h2 : py_int q = -py_int (-q) := by
      unfold py_int
      rw [Rat.neg_num, Rat.neg_den, Int.neg_tdiv, neg_neg]
    rw [h2, py_int_nonneg (-q) h1, Int.floor_neg, neg_neg]

/-- Counterexample to C3: the path 0→1 is emitted; its edge has distance
11 ft at adversary speed 11 ft/s, so the spec formula adds a travel second
(total 101), but the recorded total time is the bare breach time 100. -/
theorem C3_counterexample :
    ([0, 1] ∈ print_all_paths gEx CEx BEx 3 0 1) ∧
    (path_meta CEx [0, 1]).total_time = 100 ∧
    spec_total_time 11 (1/2) (1/20) distEx dhEx CEx [0, 1] = 101 ∧
    (100 : ℤ) ≠ 101 := by
  refine ⟨by decide, by decide, ?_, by decide⟩
  have hval : spec_total_time 11 (1/2) (1/20) distEx dhEx CEx [0, 1]
      = ⌊(1051 : ℚ) / 1000⌋ + 100 := by
    unfold spec_total_time spec_travel_time distEx dhEx CEx
    norm_num
  have hfl : ⌊(1051 : ℚ) / 1000⌋ = 1 := Int.floor_eq_iff.mpr (by norm_num)
  rw [hval, hfl]
  decide

/-- C3 as amended: the total time recorded for an emitted path is exactly
the sum of the breach times of all its nodes, the origin included; travel
time is not part of the recorded metadata (it only appears in the Step 4
detail strings). -/
theorem C3_amended_recorded_time_is_breach_time_sum (g : Nat → List Nat)
    (C : Costs) (B : Budgets) (n s d : Nat) (_hg : ∀ x y, y ∈ g x → y < n)
    (_hs : s < n) (p : List Nat) (_hp : p ∈ print_all_paths g C B n s d) :
    (path_meta C p).total_time = (p.map C.node_time).sum :=
  path_meta_time C p

/-- Witness for the amended C3. -/
theorem C3_witness :
    (path_meta CEx [0, 1]).total_time = ([0, 1].map CEx.node_time).sum :=
  C3_amended_recorded_time_is_breach_time_sum gEx CEx BEx 3 0 1 gEx_bound
    (by omega) [0, 1] (by decide)

/-- Counterexample to C4: the path 1→2 (a segment between two target-set
elements) is emitted; the spec charges only node 2 (3 lb), but the recorded
consumable total also charges the origin node 1 (5 lb), giving 8. -/
theorem C4_counterexample :
    ([1, 2] ∈ print_all_paths gEx CEx BEx 3 1 2) ∧
    (path_meta CEx [1, 2]).total_consum = 8 ∧
    spec_total_consum CEx [1, 2] = 3 ∧ (8 : Nat) ≠ 3 := by
  decide

/-- C4 as amended: the recorded consumable total of an emitted path is the
sum of the consumable weights of all its nodes - distinct, since emitted
paths are simple - with the origin included rather than excluded. -/
theorem C4_amended_consum_includes_origin (g : Nat → List Nat) (C : Costs)
    (B : Budgets) (n s d : Nat) (_hg : ∀ x y, y ∈ g x → y < n)
    (_hs : s < n) (p : List Nat) (_hp : p ∈ print_all_paths g C B n s d) :
    (path_meta C p).total_consum = (p.map C.node_consum).sum :=
  path_meta_consum C p

/-- Witness for the amended C4. -/
theorem C4_witness :
    (path_meta CEx [1, 2]).total_consum = ([1, 2].map CEx.node_consum).sum :=
  C4_amended_consum_includes_origin gEx CEx BEx 3 1 2 gEx_bound
    (by omega) [1, 2] (by decide)

/-- Counterexample to C7: on a level-distance-0 edge descending 1 ft with
descent fatigue 0.5 s/ft at speed 11, the source computes
`int(-0.449) = 0` (truncation toward zero) while the claimed floor formula
gives -1.  The membership conjunct shows edges of emitted paths are the
context in which `move_time` is applied. -/
theorem C7_counterexample :
    ([0, 1] ∈ print_all_paths gEx CEx BEx 3 0 1) ∧
    move_time 11 (1/2) (1/2) 0 (-1) = 0 ∧
    spec_travel_time 11 (1/2) (1/2) 0 (-1) = -1 ∧
    (0 : ℤ) ≠ -1 := by
  refine ⟨by decide, ?_, ?_, by decide⟩
  · have h2 : move_time 11 (1/2) (1/2) 0 (-1) = py_int ((-449 : ℚ) / 1000) := by
      unfold move_time
      norm_num
    rw [h2, py_int_eq_floor_or_ceil,
      if_neg (by norm_num : ¬ (0 : ℚ) ≤ (-449 : ℚ) / 1000)]
    exact Int.ceil_eq_iff.mpr (by norm_num)
  · have hval : spec_travel_time 11 (1/2) (1/2) 0 (-1)
        = ⌊(-449 : ℚ) / 1000⌋ := by
      unfold spec_travel_time
      norm_num
    rw [hval]
    exact Int.floor_eq_iff.mpr (by norm_num)

/-- C7 as amended: the per-edge travel-time contribution equals the
truncation toward zero of `move_dist/adv_speed + vertical_surcharge +
0.051`: the claimed floor whenever that operand is non-negative, and the
ceiling when it is negative (so small negative operands yield 0, not -1). -/
theorem C7_amended_travel_time_truncates_toward_zero
    (adv ascend descend : ℚ) (move_dist dh : ℤ) :
    move_time adv ascend descend move_dist dh
      = (if 0 ≤ (move_dist : ℚ) / adv
            + (if 0 < dh then (dh : ℚ) * ascend else (dh : ℚ) * descend)
            + 51 / 1000
         then spec_travel_time adv ascend descend move_dist dh
         else ⌈(move_dist : ℚ) / adv
            + (if 0 < dh then (dh : ℚ) * ascend else (dh : ℚ) * descend)
            + 51 / 1000⌉) := by
  unfold move_time spec_travel_time
  exact py_int_eq_floor_or_ceil _

/-- A line of a `PathData_*.txt` file as the Step 1B reducer sees it
(source lines 453-467): the parsed time (`data_list[0]`), the parsed
consumables (`data_list[1]`), and a tag standing for the rest of the line
so that distinct lines stay distinct. -/
structure RLine where
  time : ℚ
  consum : ℚ
  tag : Nat
deriving DecidableEq

/-- One iteration of the fastest-selection loop of Step 1B (source lines
468-472): when the line's time is below the running cutoff, the list pops
its last element and lowers the cutoff if it is already at
`cutoff_fastest` entries, then the line is appended.  `fastest.pop()` on
an empty list raises IndexError, modelled by `none`. -/
def fastest_step (cutoff_fastest : Nat) (st : ℚ × List RLine) (x : RLine) :
    Option (ℚ × List RLine) :=
  if x.time < st.1 then
    if cutoff_fastest ≤ st.2.length then
      match st.2 with
      | [] => none
      | _ :: _ => some (x.time, st.2.dropLast ++ [x])
    else some (st.1, st.2 ++ [x])
  else some st

/-- The whole fastest-selection pass over one file's lines, starting from
`cutoff_time = float(999999)` and an empty list (source lines 446-472). -/
def reduce_fastest (cutoff_fastest : Nat) (content : List RLine) :
    Option (List RLine) :=
  (content.foldlM (fastest_step cutoff_fastest) ((999999 : ℚ), ([] : List RLine))).map
    (fun st => st.2)

/-- The mirror lightest-selection loop (source lines 473-477), keyed on
the consumables column. -/
def lightest_step (cutoff_lightest : Nat) (st : ℚ × List RLine) (x : RLine) :
    Option (ℚ × List RLine) :=
  if x.consum < st.1 then
    if cutoff_lightest ≤ st.2.length then
      match st.2 with
      | [] => none
      | _ :: _ => some (x.consum, st.2.dropLast ++ [x])
    else some (st.1, st.2 ++ [x])
  else some st

/-- The whole lightest-selection pass over one file's lines. -/
def reduce_lightest (cutoff_lightest : Nat) (content : List RLine) :
    Option (List RLine) :=
  (content.foldlM (lightest_step cutoff_lightest) ((999999 : ℚ), ([] : List RLine))).map
    (fun st => st.2)

/-- Combining the two retained lists (source lines 483-486): start from a
copy of `fastest` and append each line of `lightest` not already present. -/
def combine_reduced (fastest lightest : List RLine) : List RLine :=
  lightest.foldl (fun combo x => if x ∈ combo then combo else combo ++ [x])
    fastest

/-- The four input lines of the failing run: times 5, 3, 4, 1 and
consumables 50, 30, 40, 10 (tags 0-3). -/
def rlinesEx : List RLine :=
  [{ time := 5, consum := 50, tag := 0 }, { time := 3, consum := 30, tag := 1 },
   { time := 4, consum := 40, tag := 2 }, { time := 1, consum := 10, tag := 3 }]

/-- Evaluation of the reducer at the failing input, exhibiting the bug of
C5.  With `cutoff_fastest = cutoff_lightest = 2` the retained set is the
lines with times {5, 1} / consumables {50, 10}: the line with time 3 and
consumables 30 - in both the two time-smallest and the two
consumable-smallest - is dropped, while the line with time 5 and
consumables 50 - in neither - is kept.  With a cutoff of 0 ("no limit"
per the claim and the source's own comment) the very first admissible
line makes `fastest.pop()` fire on the empty list, an IndexError. -/
theorem C5_reducer_selection_bug :
    reduce_fastest 2 rlinesEx
      = some [{ time := 5, consum := 50, tag := 0 },
              { time := 1, consum := 10, tag := 3 }] ∧
    reduce_lightest 2 rlinesEx
      = some [{ time := 5, consum := 50, tag := 0 },
              { time := 1, consum := 10, tag := 3 }] ∧
    combine_reduced
        [{ time := 5, consum := 50, tag := 0 },
         { time := 1, consum := 10, tag := 3 }]
        [{ time := 5, consum := 50, tag := 0 },
         { time := 1, consum := 10, tag := 3 }]
      = [{ time := 5, consum := 50, tag := 0 },
         { time := 1, consum := 10, tag := 3 }] ∧
    ({ time := 3, consum := 30, tag := 1 } : RLine)
      ∉ [({ time := 5, consum := 50, tag := 0 } : RLine),
         { time := 1, consum := 10, tag := 3 }] ∧
    reduce_fastest 0 [{ time := 5, consum := 50, tag := 0 }] = none := by
  decide

/-- The string building shared by the `+` and `_` branches of
`parse_mission` (source lines 1015-1031): concatenate the operand strings,
appending a `:` to any operand that does not already end with one.
Strings are modelled as lists of characters. -/
def render_colon (combo : List (List Char)) : List Char :=
  combo.foldl (fun acc node =>
    acc ++ (if node.getLast? = some ':' then node else node ++ [':'])) []

/-- `parse_mission` (source lines 1000-1047): split the fragment on the
first operator found (`+`, then `_`, then `,`); the `+` branch renders
every permutation of the operands (the one-level nesting it creates is
flattened by the terminal `while listdepth > 1` loop, so the permutation
list is returned directly), the `_` branch renders the operands in written
order, the `,` branch emits one colon-terminated string per operand, and a
fragment with no operator is returned as is.  `List.splitOn` has exactly
the semantics of Python `str.split`. -/
def parse_mission (fragment : List Char) : List (List Char) :=
  if '+' ∈ fragment then
    ((fragment.splitOn '+').permutations).map render_colon
  else if '_' ∈ fragment then
    [render_colon (fragment.splitOn '_')]
  else if ',' ∈ fragment then
    (fragment.splitOn ',').map (fun step => step ++ [':'])
  else [fragment]

theorem intercalate_cons_cons (c : Char) (a b : List Char)
    (t : List (List Char)) :
    [c].intercalate (a :: b :: t) = a ++ [c] ++ [c].intercalate (b :: t) := by
  simp [List.intercalate, List.intersperse_cons_cons]

theorem sep_mem_intercalate (c : Char) (l : List (List Char))
    (hlen : 2 ≤ l.length) : c ∈ [c].intercalate l := by
  match l, hlen with
  | a :: b :: t, _ =>
    rw [intercalate_cons_cons]
    simp

theorem not_mem_intercalate (x c : Char) (hxc : x ≠ c) :
    ∀ (l : List (List Char)), (∀ s ∈ l, x ∉ s) → x ∉ [c].intercalate l
  | [], _ => by simp [List.intercalate]
  | [a], h => by
      simpa [List.intercalate] using h a (by simp)
  | a :: b :: t, h => by
      rw [intercalate_cons_cons]
      intro hmem
      rcases List.mem_append.mp hmem with h1 | h2
      · rcases List.mem_append.mp h1 with h3 | h4
        · exact h a (by simp) h3
        · exact hxc (by simpa using h4)
      · exact not_mem_intercalate x c hxc (b :: t)
          (fun s hs => h s (List.mem_cons_of_mem _ hs)) h2

/-- C6: on a group of k operator-free identifiers, the expander emits all
k! rendered permutations (one entry per permutation of the operand list)
when they are joined by `+`, the single rendering in written order when
joined by `_`, and one single-waypoint alternative per disjunct when
joined by `,`. -/
theorem C6_parse_mission_operator_semantics (l : List (List Char))
    (hlen : 2 ≤ l.length) (_hne : ∀ s ∈ l, s ≠ [])
    (hel : ∀ s ∈ l, '+' ∉ s ∧ '_' ∉ s ∧ ',' ∉ s) :
    (parse_mission (['+'].intercalate l) = (l.permutations).map render_colon ∧
      (parse_mission (['+'].intercalate l)).length = Nat.factorial l.length) ∧
    parse_mission (['_'].intercalate l) = [render_colon l] ∧
    parse_mission ([','].intercalate l) = l.map (fun step => step ++ [':']) := by
  have hl_ne : l ≠ [] := by
    intro h
    subst h
    simp at hlen
  have hplus : ∀ s ∈ l, '+' ∉ s := fun s hs => (hel s hs).1
  have hund : ∀ s ∈ l, '_' ∉ s := fun s hs => (hel s hs).2.1
  have hcom : ∀ s ∈ l, ',' ∉ s := fun s hs => (hel s hs).2.2
  have hpart1 : parse_mission (['+'].intercalate l)
      = (l.permutations).map render_colon := by
    unfold parse_mission
    rw [if_pos (sep_mem_intercalate '+' l hlen),
      List.splitOn_intercalate l '+' hplus hl_ne]
  refine ⟨⟨hpart1, ?_⟩, ?_, ?_⟩
  · rw [hpart1, List.length_map, List.length_permutations]
  · unfold parse_mission
    rw [if_neg (not_mem_intercalate '+' '_' (by decide) l hplus),
      if_pos (sep_mem_intercalate '_' l hlen),
      List.splitOn_intercalate l '_' hund hl_ne]
  · unfold parse_mission
    rw [if_neg (not_mem_intercalate '+' ',' (by decide) l hplus),
      if_neg (not_mem_intercalate '_' ',' (by decide) l hund),
      if_pos (sep_mem_intercalate ',' l hlen),
      List.splitOn_intercalate l ',' hcom hl_ne]

/-- Witness for C6 at the concrete group `(A_B)`: exactly one mission,
visiting A then B, and it is not the rendering of the reversed order. -/
theorem C6_witness :
    parse_mission (['_'].intercalate [['A'], ['B']])
      = [render_colon [['A'], ['B']]] ∧
    render_colon [['A'], ['B']] = ['A', ':', 'B', ':'] ∧
    (['A', ':', 'B', ':'] : List Char) ≠ render_colon [['B'], ['A']] := by
  refine ⟨(C6_parse_mission_operator_semantics [['A'], ['B']] (by decide)
    (by decide) (by decide)).2.1, by decide, by decide⟩

/-- One considered segment of the Step 1A dispatch loop (source lines
379-416).  A queue entry is the pair of endpoint substrings of a `from:to`
connection string.  When the worker pool has capacity
(`len(working) < n_processors - 1`) and both endpoints are known node ids,
a worker is spawned and `queue.remove(my_segment)` runs (line 408);
the unknown-endpoint error branch (lines 410-416) only prints and logs -
it does not remove the segment - and without capacity nothing happens. -/
def dispatch_step (node_id : List String) (queue : List (String × String))
    (seg : String × String) (capacity_ok : Bool) : List (String × String) :=
  if capacity_ok then
    if seg.1 ∈ node_id ∧ seg.2 ∈ node_id then queue.erase seg
    else queue
  else queue

/-- C9 fails on the code: a queued key with an unknown endpoint is logged
and skipped but never removed from the queue and never recorded with an
empty path set, so after any sequence of dispatch iterations the key is
still queued and the `while queue or working` condition stays true - the
run does not terminate.  (Known keys are still dispatched and removed, so
the remaining keys are processed.) -/
theorem C9_unknown_key_never_leaves_queue (node_id : List String)
    (bad : String × String) (hbad : bad.1 ∉ node_id ∨ bad.2 ∉ node_id)
    (q0 : List (String × String)) (hq : bad ∈ q0)
    (steps : List ((String × String) × Bool)) :
    bad ∈ steps.foldl (fun q sb => dispatch_step node_id q sb.1 sb.2) q0 ∧
    steps.foldl (fun q sb => dispatch_step node_id q sb.1 sb.2) q0 ≠ [] := by
  have hmem : ∀ (q : List (String × String)) (sb : (String × String) × Bool),
      bad ∈ q → bad ∈ dispatch_step node_id q sb.1 sb.2 := by
    intro q sb hb
    unfold dispatch_step
    by_cases hcap : sb.2 = true
    · rw [if_pos hcap]
      by_cases hk : sb.1.1 ∈ node_id ∧ sb.1.2 ∈ node_id
      · rw [if_pos hk]
        have hne : bad ≠ sb.1 := by
          intro he
          rcases hbad with h1 | h2
          · exact h1 (he ▸ hk.1)
          · exact h2 (he ▸ hk.2)
        exact (List.mem_erase_of_ne hne).mpr hb
      · rw [if_neg hk]
        exact hb
    · rw [if_neg hcap]
      exact hb
  suffices hall : bad ∈ steps.foldl
      (fun q sb => dispatch_step node_id q sb.1 sb.2) q0 by
    exact ⟨hall, List.ne_nil_of_mem hall⟩
  induction steps generalizing q0 with
  | nil => exact hq
  | cons sb steps ih =>
      simp only [List.foldl_cons]
      exact ih _ (hmem q0 sb hq)

/-- Witness for C9: with known nodes `start`, `A`, the key `(start, X)`
survives a dispatch pass that removes the valid key `(start, A)`. -/
theorem C9_witness :
    (("start", "X") ∈
      ([(("start", "A"), true), (("start", "X"), true)] :
          List ((String × String) × Bool)).foldl
        (fun q sb => dispatch_step ["start", "A"] q sb.1 sb.2)
        [("start", "X"), ("start", "A")]) ∧
    ([(("start", "A"), true), (("start", "X"), true)] :
        List ((String × String) × Bool)).foldl
      (fun q sb => dispatch_step ["start", "A"] q sb.1 sb.2)
      [("start", "X"), ("start", "A")] ≠ [] :=
  C9_unknown_key_never_leaves_queue ["start", "A"] ("start", "X")
    (by decide) [("start", "X"), ("start", "A")] (by decide)
    [(("start", "A"), true), (("start", "X"), true)]

/-- The blank entry: before combining, `perm` checks whether the first
entry of the last leg list is the empty string (source line 1288); in the
parsed-record model the empty string corresponds to the all-empty entry. -/
def blank_item : Item :=
  { time := 0, consum := 0, weight := 0, tools := [], path := [] }

/-- The Python list objects reachable from a scenario, with identity:
`mem r` is the list object stored at reference `r` and `next` is the next
fresh reference.  A scenario is a list of references to per-leg list
objects; `result = scenario.copy()` (source line 1280) is a shallow copy,
so `result` holds the same references. -/
structure Heap where
  mem : Nat → List Item
  next : Nat

/-- Allocation of a fresh list object (`new_list.copy()`, source line
1342). -/
def Heap.alloc (h : Heap) (v : List Item) : Heap × Nat :=
  ({ mem := fun r => if r = h.next then v else h.mem r, next := h.next + 1 },
    h.next)

/-- One iteration of the `while n > 1` body of `perm` (source lines
1292-1344): extract the last leg list (`list1`, the later leg) and the
next-to-last (`list2`, the earlier leg, iterated in the outer loop),
combine them pairwise in order keeping the valid combinations, store the
fresh combined list object in the next-to-last slot and delete the last
slot.  Writes of invalid combinations to Invalid_Paths.txt are not
modelled. -/
def perm_step (t c nc : Nat) (h : Heap) (result : List Nat) :
    Heap × List Nat :=
  let list1 := h.mem (result.getLastD 0)
  let list2 := h.mem (result.dropLast.getLastD 0)
  let new_list := list2.flatMap (fun item2 =>
    list1.filterMap (fun item1 =>
      let rc := perm_combine t c nc item1 item2
      if rc.1 then some rc.2 else none))
  let ar := h.alloc new_list
  (ar.1, result.dropLast.dropLast ++ [ar.2])

/-- The `while n > 1` combination loop of `perm` (source lines 1291-1345):
iterate `perm_step` while at least two leg lists remain.  `fuel` bounds
the iterations; each one removes one slot, so the scenario length
suffices. -/
def perm_loop (t c nc : Nat) : Nat → Heap → List Nat → Heap × List Nat
  | 0, h, result => (h, result)
  | fuel + 1, h, result =>
      if result.length ≤ 1 then (h, result)
      else
        perm_loop t c nc fuel (perm_step t c nc h result).1
          (perm_step t c nc h result).2

/-- `perm` (source lines 1274-1347): shallow-copy the scenario, return the
empty result when some leg list is empty (lines 1283-1287), drop a
trailing blank leg (line 1288), then run the combination loop.  `none`
models the IndexError `result[-1]` raises on an empty scenario. -/
def perm (h : Heap) (t c nc : Nat) (scenario : List Nat) :
    Heap × Option (List Nat) :=
  let result := scenario
  if result.any (fun x => (h.mem x).isEmpty) then (h, some [])
  else
    match result.getLast? with
    | none => (h, none)
    | some lastref =>
        let result2 := if (h.mem lastref).head? = some blank_item
          then result.dropLast else result
        let lr := perm_loop t c nc result2.length h result2
        (lr.1, some lr.2)

theorem perm_step_next (t c nc : Nat) (h : Heap) (result : List Nat) :
    (perm_step t c nc h result).1.next = h.next + 1 := rfl

theorem perm_step_mem (t c nc : Nat) (h : Heap) (result : List Nat)
    (r : Nat) (hr : r < h.next) :
    (perm_step t c nc h result).1.mem r = h.mem r := by
  show (if r = h.next then _ else h.mem r) = h.mem r
  rw [if_neg (by omega)]

theorem perm_loop_frame (t c nc : Nat) :
    ∀ (fuel : Nat) (h : Heap) (result : List Nat),
      h.next ≤ (perm_loop t c nc fuel h result).1.next ∧
      ∀ r, r < h.next → (perm_loop t c nc fuel h result).1.mem r = h.mem r := by
  intro fuel
  induction fuel with
  | zero => intro h result; exact ⟨Nat.le_refl _, fun r _ => rfl⟩
  | succ fuel ih =>
      intro h result
      rw [perm_loop]
      by_cases hlen : result.length ≤ 1
      · rw [if_pos hlen]
        exact ⟨Nat.le_refl _, fun r _ => rfl⟩
      · rw [if_neg hlen]
        refine ⟨?_, ?_⟩
        · have h1 := (ih (perm_step t c nc h result).1
            (perm_step t c nc h result).2).1
          rw [perm_step_next] at h1
          omega
        · intro r hr
          rw [(ih (perm_step t c nc h result).1
              (perm_step t c nc h result).2).2 r
            (by rw [perm_step_next]; omega)]
          exact perm_step_mem t c nc h result r hr

/-- C10: `perm` only reads the per-leg list objects referenced by its
scenario argument; every list object that existed before the call - the
scenario's own lists in particular - is unchanged afterwards, whether the
call returns normally or hits its error paths, so the caller's scenario is
element-for-element identical before and after. -/
theorem C10_perm_leaves_scenario_unchanged (h : Heap) (t c nc : Nat)
    (scenario : List Nat) (hwf : ∀ x ∈ scenario, x < h.next) :
    (∀ r, r < h.next → ((perm h t c nc scenario).1).mem r = h.mem r) ∧
    scenario.map (fun x => ((perm h t c nc scenario).1).mem x)
      = scenario.map (fun x => h.mem x) := by
  have hframe : ∀ r, r < h.next →
      ((perm h t c nc scenario).1).mem r = h.mem r := by
    intro r hr
    unfold perm
    by_cases hany : scenario.any (fun x => (h.mem x).isEmpty)
    · simp only [if_pos hany]
    · simp only [if_neg hany]
      rcases hgl : scenario.getLast? with _ | lastref
      · simp only []
      · simp only []
        exact (perm_loop_frame t c nc _ h _).2 r hr
  refine ⟨hframe, List.map_congr_left ?_⟩
  intro x hx
  exact hframe x (hwf x hx)

/-- Concrete two-leg heap for the C10 witness: references 0 and 1 hold the
two one-entry leg lists. -/
def heapEx : Heap :=
  { mem := fun r => if r = 0 then [q2Ex] else if r = 1 then [q1Ex] else [],
    next := 2 }

/-- Witness for C10 at the concrete heap. -/
theorem C10_witness :
    [0, 1].map (fun x => ((perm heapEx 1000 50 50 [0, 1]).1).mem x)
      = [0, 1].map (fun x => heapEx.mem x) :=
  (C10_perm_leaves_scenario_unchanged heapEx 1000 50 50 [0, 1]
    (by decide)).2

end PathFinderPlus
